import Mathlib

/-!
Verification of the phase-1 script-validation core
(`src/crates/uplc/src/tx/phase_one.rs`) and of the machine result
predicate (`src/crates/uplc/src/machine/eval_result.rs`).

Byte strings (hashes, policy ids, raw addresses) are modelled as `List Nat`;
the `LinearOrder` on lists is byte-lexicographic, matching the `Ord`
instances of the Rust byte-array types.  Rust functions that can panic
(`unreachable!`, `assert!`, `Result::unwrap`) are embedded into a result
type with an explicit `panicked` constructor, so that returning an error by
value and unwinding are distinguishable.
-/

/-- Raw byte strings: hashes, policy ids, reward-account/address bytes. -/
abbrev Bytes := List Nat

/-- `pallas_primitives::TransactionInput` (the spec's `OutputRef`):
a 32-byte transaction id together with an output index. -/
@[ext]
structure TransactionInput where
  transactionId : Bytes
  index : Nat
deriving DecidableEq

/-- `pallas_primitives::conway::StakeCredential`. -/
inductive StakeCredential where
  | scripthash (h : Bytes)
  | addrKeyhash (h : Bytes)
deriving DecidableEq

/-- `pallas_primitives::conway::Certificate`.  Only the two kinds the source
matches on are kept distinct; every remaining conway certificate kind is
collapsed into `other` (the source matches them with a single wildcard). -/
inductive Certificate where
  | stakeRegistration (c : StakeCredential)
  | stakeDeregistration (c : StakeCredential)
  | stakeDelegation (c : StakeCredential) (pool : Bytes)
  | other (tag : Nat)
deriving DecidableEq

/-- `script_context::ScriptPurpose` (declared in `tx/script_context.rs`,
used by `phase_one.rs`). -/
inductive ScriptPurpose where
  | minting (policyId : Bytes)
  | spending (input : TransactionInput)
  | rewarding (credential : StakeCredential)
  | certifying (cert : Certificate)
deriving DecidableEq

/-- `script_context::ScriptVersion`; the attached script bodies are elided,
the source only ever matches on the variant. -/
inductive ScriptVersion where
  | native
  | v1
  | v2
  | v3
deriving DecidableEq

/-- `pallas_primitives::conway::RedeemerTag`. -/
inductive RedeemerTag where
  | spend
  | mint
  | cert
  | reward
  | vote
  | propose
deriving DecidableEq

/-- `pallas_primitives::conway::RedeemersKey`: the redeemer pointer. -/
structure RedeemersKey where
  tag : RedeemerTag
  index : Nat
deriving DecidableEq

/-- `pallas_primitives::conway::TransactionOutput`: the two output eras,
flattened to the address bytes (the only field `phase_one.rs` reads). -/
inductive TransactionOutput where
  | legacy (address : Bytes)
  | postAlonzo (address : Bytes)
deriving DecidableEq

/-- The address bytes of either output era. -/
def TransactionOutput.address : TransactionOutput → Bytes
  | .legacy a => a
  | .postAlonzo a => a

/-- `script_context::ResolvedInput`. -/
structure ResolvedInput where
  input : TransactionInput
  output : TransactionOutput
deriving DecidableEq

/-- Modelled from the spec: the payment part of a Shelley address
(`pallas_addresses::ShelleyPaymentPart`). -/
inductive ShelleyPaymentPart where
  | key (h : Bytes)
  | script (h : Bytes)
deriving DecidableEq

/-- Modelled from the spec: the payload of a stake address
(`pallas_addresses::StakePayload`). -/
inductive StakePayload where
  | stake (h : Bytes)
  | script (h : Bytes)
deriving DecidableEq

/-- Modelled from the spec: the decoded address variants exposed by the §6
address-decoder contract (`pallas_addresses::Address`). -/
inductive Address where
  | shelley (payment : ShelleyPaymentPart)
  | stake (payload : StakePayload)
  | byron (payload : Bytes)
deriving DecidableEq

/-- Modelled from the spec: the §6 address decoder
(`pallas_addresses::Address::from_bytes`).  The first byte is a header tag
selecting the variant, the remaining bytes are the hash payload; any other
header is a decode error. -/
def addressFromBytes : Bytes → Except Unit Address
  | 0 :: rest => .ok (.shelley (.key rest))
  | 1 :: rest => .ok (.shelley (.script rest))
  | 2 :: rest => .ok (.stake (.stake rest))
  | 3 :: rest => .ok (.stake (.script rest))
  | 4 :: rest => .ok (.byron rest)
  | _ => .error ()

/-- Modelled from the spec: the §7 error taxonomy (`tx/error.rs`, which only
declares the enum).  The source formats the two mismatch diagnostics into
strings; the structured content being formatted is kept instead. -/
inductive Err where
  | resolvedInputNotFound (input : TransactionInput)
  | addressDecode
  | badWithdrawalAddress
  | governanceUnsupported
  | scriptSetMismatch (missing extra : List Bytes)
  | requiredRedeemersMismatch (missing : List (RedeemersKey × ScriptPurpose × Bytes))
      (extra : List RedeemersKey)
deriving DecidableEq

/-- Result of running a fallible Rust function: an `Ok` value, an `Err`
returned by value, or a panic (`unreachable!` / `assert!` / `unwrap`). -/
inductive RunResult (α : Type) where
  | ok (a : α)
  | err (e : Err)
  | panicked (msg : String)
deriving DecidableEq

/-- Whether a run produced an `Ok` value. -/
def RunResult.isOkB : RunResult α → Bool
  | .ok _ => true
  | _ => false

/-- Whether a run produced an `Err` value (a panic is not an `Err`). -/
def RunResult.isErrB : RunResult α → Bool
  | .err _ => true
  | _ => false

/-- `tx.transaction_body`, restricted to the fields `phase_one.rs` reads.
`mint`, `withdrawals` and `certificates` are the optional key-value /
certificate containers in their encoded order; the governance fields are
kept only as presence flags. -/
structure TransactionBody where
  inputs : List TransactionInput
  mint : Option (List (Bytes × Int))
  withdrawals : Option (List (Bytes × Nat))
  certificates : Option (List Certificate)
  proposalProcedures : Option Unit
  votingProcedures : Option Unit
deriving DecidableEq

/-- `tx.transaction_witness_set`, restricted to the redeemer map; only its
key set matters, the `(Data, ExUnits)` payload is collapsed to a `Nat`. -/
structure WitnessSet where
  redeemer : Option (List (RedeemersKey × Nat))
deriving DecidableEq

/-- `pallas_primitives::conway::MintedTx`, restricted to the parts
`phase_one.rs` reads. -/
structure MintedTx where
  transactionBody : TransactionBody
  transactionWitnessSet : WitnessSet
deriving DecidableEq

/-- `type ScriptsNeeded = Vec<(ScriptPurpose, ScriptHash)>`. -/
abbrev ScriptsNeeded := List (ScriptPurpose × Bytes)

/-- `utxos.iter().find(|utxo| utxo.input == *input)`. -/
def lookupUtxo (utxos : List ResolvedInput) (input : TransactionInput) : Option ResolvedInput :=
  utxos.find? (fun u => decide (u.input = input))

/-- The spending pass of `scripts_needed`: the `for input in txb.inputs`
loop, with its two early `Err` returns (unresolved input, address decode). -/
def spendPass (utxos : List ResolvedInput) : List TransactionInput → RunResult ScriptsNeeded
  | [] => .ok []
  | input :: rest =>
    match lookupUtxo utxos input with
    | none => .err (.resolvedInputNotFound input)
    | some utxo =>
      match addressFromBytes utxo.output.address with
      | .error _ => .err .addressDecode
      | .ok a =>
        match spendPass utxos rest with
        | .ok tail =>
          match a with
          | .shelley (.script h) => .ok ((ScriptPurpose.spending input, h) :: tail)
          | _ => .ok tail
        | r => r

/-- The rewarding pass of `scripts_needed`: `filter_map` over the
withdrawals; `Address::from_bytes(acnt).unwrap()` panics on a decode
failure, and every decoded address that is not a stake-script address is
silently skipped. -/
def rewardPass : List (Bytes × Nat) → RunResult ScriptsNeeded
  | [] => .ok []
  | (acnt, _) :: rest =>
    match addressFromBytes acnt with
    | .error _ => .panicked "called Result::unwrap on an Err value"
    | .ok (.stake (.script h)) =>
      match rewardPass rest with
      | .ok tail => .ok ((ScriptPurpose.rewarding (.scripthash h), h) :: tail)
      | r => r
    | .ok _ => rewardPass rest

/-- The certifying pass of `scripts_needed`: only stake deregistration and
stake delegation certificates whose credential is a script hash emit a
purpose. -/
def certPass (certs : List Certificate) : ScriptsNeeded :=
  certs.filterMap (fun c =>
    match c with
    | .stakeDeregistration (.scripthash h) => some (.certifying c, h)
    | .stakeDelegation (.scripthash h) _ => some (.certifying c, h)
    | _ => none)

/-- The minting pass of `scripts_needed`: every policy id key becomes a
minting purpose. -/
def mintPass (mint : List (Bytes × Int)) : ScriptsNeeded :=
  mint.map (fun pr => (ScriptPurpose.minting pr.1, pr.1))

/-- `scripts_needed`: the four passes in order, then the two governance
`assert!`s, then the concatenation spend ++ reward ++ cert ++ mint. -/
def scriptsNeeded (tx : MintedTx) (utxos : List ResolvedInput) : RunResult ScriptsNeeded :=
  match spendPass utxos tx.transactionBody.inputs with
  | .err e => .err e
  | .panicked m => .panicked m
  | .ok spend =>
    match rewardPass (tx.transactionBody.withdrawals.getD []) with
    | .err e => .err e
    | .panicked m => .panicked m
    | .ok reward =>
      let cert := certPass (tx.transactionBody.certificates.getD [])
      let mint := mintPass (tx.transactionBody.mint.getD [])
      if tx.transactionBody.proposalProcedures.isSome then
        .panicked "assertion failed: txb.proposal_procedures.is_none()"
      else if tx.transactionBody.votingProcedures.isSome then
        .panicked "assertion failed: txb.voting_procedures.is_none()"
      else
        .ok (spend ++ reward ++ cert ++ mint)

/-- The needed-minus-received side of `validate_missing_scripts` (the
source formats each entry as a `Missing (sh: ..)` string). -/
def missingScripts (needed : ScriptsNeeded) (txscripts : List (Bytes × ScriptVersion)) :
    List Bytes :=
  (needed.map Prod.snd).filter (fun h => !(decide (h ∈ txscripts.map Prod.fst)))

/-- The received-minus-needed side of `validate_missing_scripts` (the
source formats each entry as an `Extraneous (sh: ..)` string). -/
def extraScripts (needed : ScriptsNeeded) (txscripts : List (Bytes × ScriptVersion)) :
    List Bytes :=
  (txscripts.map Prod.fst).filter (fun h => !(decide (h ∈ needed.map Prod.snd)))

/-- `validate_missing_scripts`: on any non-empty symmetric difference the
source calls `unreachable!` with the formatted diagnostic, i.e. it panics
instead of returning an `Err` by value. -/
def validateMissingScripts (needed : ScriptsNeeded)
    (txscripts : List (Bytes × ScriptVersion)) : RunResult Unit :=
  if missingScripts needed txscripts ≠ [] ∨ extraScripts needed txscripts ≠ [] then
    .panicked "internal error: entered unreachable code: Mismatch in required scripts"
  else
    .ok ()

/-- Rust `Iterator::position`: the index of the first element satisfying
the predicate. -/
def listPosition (p : α → Bool) : List α → Option Nat
  | [] => none
  | a :: l => if p a then some 0 else (listPosition p l).map (· + 1)

/-- Byte-lexicographic strict order on raw byte strings (`Ord` on the Rust
byte-array types, a shorter strict prefix being smaller). -/
def bytesLtB : Bytes → Bytes → Bool
  | [], [] => false
  | [], _ :: _ => true
  | _ :: _, [] => false
  | a :: as, b :: bs => if a < b then true else if b < a then false else bytesLtB as bs

/-- Byte-lexicographic less-or-equal, the comparator used by `.sorted()` on
policy ids and by `.sort()` on reward accounts. -/
def bytesLeB (a b : Bytes) : Bool := !(bytesLtB b a)

/-- The comparator of the `Spend` arm of `build_redeemer_key` as a
less-or-equal test: transaction id first (byte-lexicographic), then the
output index. -/
def inputLeB (a b : TransactionInput) : Bool :=
  if bytesLtB a.transactionId b.transactionId then true
  else if bytesLtB b.transactionId a.transactionId then false
  else decide (a.index ≤ b.index)

/-- Insert into a sorted list, keeping it sorted. -/
def insertLeB (le : α → α → Bool) (a : α) : List α → List α
  | [] => [a]
  | b :: l => if le a b then a :: b :: l else b :: insertLeB le a l

/-- The sorts of `phase_one.rs` (`Itertools::sorted`, `Itertools::sorted_by`
and `Vec::sort` are stable merge sorts), modelled as an insertion sort.
Every comparator used here is antisymmetric — comparator-equal elements are
equal — so all sorted permutations of a list coincide and the choice of
sorting algorithm is unobservable; antisymmetry is proved below
(`bytesLeB_antisymm`, `inputLeB_antisymm`). -/
def sortByB (le : α → α → Bool) : List α → List α
  | [] => []
  | a :: l => insertLeB le a (sortByB le l)

/-- The `for (idx, x) in reward_accounts.iter().enumerate()` loop of the
`Rewarding` arm of `build_redeemer_key`: each account is decoded with
`unwrap` (panicking on a decode failure), a non-stake address returns
`Err(BadWithdrawalAddress)`, and the accumulator records the index of the
account whose stake-script credential matches the purpose. -/
def rewardingLoop (racnt : StakeCredential) : Nat → Option RedeemersKey →
    List Bytes → RunResult (Option RedeemersKey)
  | _, acc, [] => .ok acc
  | idx, acc, x :: rest =>
    match addressFromBytes x with
    | .error _ => .panicked "called Result::unwrap on an Err value"
    | .ok (.stake p) =>
      let cred : Option StakeCredential :=
        match p with
        | .script sh => some (.scripthash sh)
        | .stake _ => none
      rewardingLoop racnt (idx + 1)
        (if cred = some racnt then some ⟨.reward, idx⟩ else acc) rest
    | .ok _ => .err .badWithdrawalAddress

/-- `build_redeemer_key`: the redeemer pointer of a script purpose, from
the canonically sorted view of its container (`Mint`: sorted policy ids,
`Spend`: inputs sorted by transaction id then index, `Reward`: sorted raw
reward accounts, `Cert`: positional). -/
def buildRedeemerKey (tx : MintedTx) (scriptPurpose : ScriptPurpose) :
    RunResult (Option RedeemersKey) :=
  match scriptPurpose with
  | .minting hash =>
    let policyIds := sortByB bytesLeB ((tx.transactionBody.mint.getD []).map Prod.fst)
    .ok ((listPosition (fun x => decide (x = hash)) policyIds).map
      (fun index => ⟨.mint, index⟩))
  | .spending txin =>
    .ok ((listPosition (fun x => decide (x = txin))
        (sortByB inputLeB tx.transactionBody.inputs)).map
      (fun index => ⟨.spend, index⟩))
  | .rewarding racnt =>
    let rewardAccounts :=
      sortByB bytesLeB ((tx.transactionBody.withdrawals.getD []).map Prod.fst)
    rewardingLoop racnt 0 none rewardAccounts
  | .certifying d =>
    .ok ((match tx.transactionBody.certificates with
          | some m => listPosition (fun x => decide (x = d)) m
          | none => none).map
      (fun index => ⟨.cert, index⟩))

/-- `tx_scripts.get(script_hash)` on the script table. -/
def lookupScript (txScripts : List (Bytes × ScriptVersion)) (h : Bytes) :
    Option ScriptVersion :=
  (txScripts.find? (fun kv => decide (kv.1 = h))).map Prod.snd

/-- The accumulation loop of `has_exact_set_of_redeemers`: for each needed
purpose, build its redeemer key (propagating errors), and record
`(key, purpose, hash)` when the key exists and the script version is
`V1`/`V2`/`V3`; `Native` (and an absent script or key) records nothing. -/
def redeemersNeededAux (tx : MintedTx) (txScripts : List (Bytes × ScriptVersion)) :
    ScriptsNeeded → RunResult (List (RedeemersKey × ScriptPurpose × Bytes))
  | [] => .ok []
  | (scriptPurpose, scriptHash) :: rest =>
    match buildRedeemerKey tx scriptPurpose with
    | .err e => .err e
    | .panicked m => .panicked m
    | .ok redeemerKey =>
      match redeemersNeededAux tx txScripts rest with
      | .err e => .err e
      | .panicked m => .panicked m
      | .ok tail =>
        match redeemerKey, lookupScript txScripts scriptHash with
        | some key, some .v1 => .ok ((key, scriptPurpose, scriptHash) :: tail)
        | some key, some .v2 => .ok ((key, scriptPurpose, scriptHash) :: tail)
        | some key, some .v3 => .ok ((key, scriptPurpose, scriptHash) :: tail)
        | _, _ => .ok tail

/-- The key set of the witness redeemer map. -/
def witnessRedeemerKeys (tx : MintedTx) : List RedeemersKey :=
  (tx.transactionWitnessSet.redeemer.getD []).map Prod.fst

/-- `has_exact_set_of_redeemers`: reconcile the computed redeemer keys with
the witness keys and return the symmetric difference as a
`RequiredRedeemersMismatch` (the source formats each side into strings;
the structured content is kept). -/
def hasExactSetOfRedeemers (tx : MintedTx) (needed : ScriptsNeeded)
    (txScripts : List (Bytes × ScriptVersion)) : RunResult Unit :=
  match redeemersNeededAux tx txScripts needed with
  | .err e => .err e
  | .panicked m => .panicked m
  | .ok redeemersNeeded =>
    let witsRedeemerKeys := witnessRedeemerKeys tx
    let neededRedeemerKeys := redeemersNeeded.map Prod.fst
    let missing := redeemersNeeded.filter (fun x => !(decide (x.1 ∈ witsRedeemerKeys)))
    let extra := witsRedeemerKeys.filter (fun x => !(decide (x ∈ neededRedeemerKeys)))
    if missing ≠ [] ∨ extra ≠ [] then
      .err (.requiredRedeemersMismatch missing extra)
    else
      .ok ()

/-- `eval_phase_one`: the three passes in sequence, short-circuiting on the
first failure. -/
def evalPhaseOne (tx : MintedTx) (utxos : List ResolvedInput)
    (lookupTable : List (Bytes × ScriptVersion)) : RunResult Unit :=
  match scriptsNeeded tx utxos with
  | .err e => .err e
  | .panicked m => .panicked m
  | .ok needed =>
    match validateMissingScripts needed lookupTable with
    | .err e => .err e
    | .panicked m => .panicked m
    | .ok _ => hasExactSetOfRedeemers tx needed lookupTable

/-- `ast::Constant`, restricted to the forms `eval_result.rs` distinguishes
(`Bool`, `Unit`) plus representative other constants; the remaining
constant forms (lists, pairs, data, BLS points) play the same role as
`integer` in `EvalResult::failed` and are elided. -/
inductive Constant where
  | integer (i : Int)
  | byteString (b : Bytes)
  | string (s : String)
  | unit
  | bool (b : Bool)
deriving DecidableEq

/-- `ast::Term<NamedDeBruijn>`: names are collapsed to de Bruijn levels,
builtins to an index; `EvalResult::failed` only distinguishes `Constant`
and `Error` from the rest. -/
inductive Term where
  | var (n : Nat)
  | delay (t : Term)
  | lambda (body : Term)
  | apply (f a : Term)
  | constant (c : Constant)
  | force (t : Term)
  | error
  | builtin (b : Nat)
deriving DecidableEq

/-- `machine::Error`, opaque: `EvalResult::failed` only asks whether the
result is an error, never which. -/
inductive MachineError where
  | mk (code : Nat)
deriving DecidableEq

/-- `cost_model::ExBudget`. -/
structure ExBudget where
  mem : Int
  cpu : Int
deriving DecidableEq

/-- `machine::eval_result::EvalResult` (the `builtin_calls` trace is
elided; `failed` reads only `result`). -/
structure EvalResult where
  result : Except MachineError Term
  remainingBudget : ExBudget
  initialBudget : ExBudget
  logs : List String

/-- Rust `Result::is_err`. -/
def Except.isErrB : Except ε α → Bool
  | .error _ => true
  | .ok _ => false

/-- `EvalResult::failed(can_error)`. -/
def EvalResult.failed (r : EvalResult) (canError : Bool) : Bool :=
  if canError then
    r.result.isOk &&
      !(match r.result with
        | .ok (.constant (.bool false)) => true
        | _ => false)
  else
    r.result.isErrB ||
      (match r.result with
       | .ok .error => true
       | _ => false) ||
      !(match r.result with
        | .ok (.constant (.bool true)) => true
        | .ok (.constant .unit) => true
        | _ => false)


/-- Pure view of the spending pass at one input: the purpose emitted when
the resolved output's address is a Shelley address with a script payment
part. -/
def spendView (utxos : List ResolvedInput) (input : TransactionInput) :
    Option (ScriptPurpose × Bytes) :=
  match lookupUtxo utxos input with
  | some utxo =>
    match addressFromBytes utxo.output.address with
    | .ok (.shelley (.script h)) => some (.spending input, h)
    | _ => none
  | none => none

/-- Pure view of the rewarding pass at one withdrawal entry: the purpose
emitted when the account decodes to a stake address with a script payload. -/
def rewardView (aw : Bytes × Nat) : Option (ScriptPurpose × Bytes) :=
  match addressFromBytes aw.1 with
  | .ok (.stake (.script h)) => some (.rewarding (.scripthash h), h)
  | _ => none

/-- Pure view of the required-redeemer computation: one entry per needed
purpose whose key exists and whose script version is Plutus `V1`/`V2`/`V3`. -/
def requiredRedeemers (tx : MintedTx) (txScripts : List (Bytes × ScriptVersion))
    (needed : ScriptsNeeded) : List (RedeemersKey × ScriptPurpose × Bytes) :=
  needed.filterMap (fun ph =>
    match buildRedeemerKey tx ph.1, lookupScript txScripts ph.2 with
    | .ok (some key), some .v1 => some (key, ph.1, ph.2)
    | .ok (some key), some .v2 => some (key, ph.1, ph.2)
    | .ok (some key), some .v3 => some (key, ph.1, ph.2)
    | _, _ => none)

/-- Whether a decoded address is a stake (reward-account) address. -/
def isStakeAddress : Address → Bool
  | .stake _ => true
  | _ => false

/-- The spec's canonical order on inputs: byte-lexicographic on the
transaction id, ties broken by the output index. -/
def specSpendLe (a b : TransactionInput) : Prop :=
  List.Lex (· < ·) a.transactionId b.transactionId ∨
    (a.transactionId = b.transactionId ∧ a.index ≤ b.index)

instance : DecidableRel specSpendLe := fun a b => by
  unfold specSpendLe
  infer_instance

/-! ### Concrete fixtures used by the counterexamples and witnesses -/

/-- A transaction with a governance field present and nothing else. -/
def txGov : MintedTx :=
  { transactionBody :=
      { inputs := [], mint := none, withdrawals := none, certificates := none,
        proposalProcedures := some (), votingProcedures := none },
    transactionWitnessSet := { redeemer := none } }

/-- A transaction whose only withdrawal key decodes to a Shelley (non-stake)
address. -/
def txShelleyWithdrawal : MintedTx :=
  { transactionBody :=
      { inputs := [], mint := none, withdrawals := some [([0, 5], 0)],
        certificates := none, proposalProcedures := none, votingProcedures := none },
    transactionWitnessSet := { redeemer := none } }

/-- A transaction with one stake-script withdrawal and one withdrawal that
decodes to a Shelley (non-stake) address. -/
def txMixedWithdrawals : MintedTx :=
  { transactionBody :=
      { inputs := [], mint := none,
        withdrawals := some [([3, 9], 0), ([0, 1], 5)],
        certificates := none, proposalProcedures := none, votingProcedures := none },
    transactionWitnessSet := { redeemer := none } }

/-- A transaction minting under two policies, listed in non-sorted order,
with the two matching witness redeemer keys. -/
def txTwoMints : MintedTx :=
  { transactionBody :=
      { inputs := [], mint := some [([9], 1), ([3], 1)], withdrawals := none,
        certificates := none, proposalProcedures := none, votingProcedures := none },
    transactionWitnessSet := { redeemer := some [(⟨.mint, 0⟩, 0), (⟨.mint, 1⟩, 0)] } }

/-- `txTwoMints` with the mint entries permuted. -/
def txTwoMintsPermuted : MintedTx :=
  { transactionBody :=
      { inputs := [], mint := some [([3], 1), ([9], 1)], withdrawals := none,
        certificates := none, proposalProcedures := none, votingProcedures := none },
    transactionWitnessSet := { redeemer := some [(⟨.mint, 0⟩, 0), (⟨.mint, 1⟩, 0)] } }

/-- A transaction with two inputs listed in non-canonical order. -/
def txTwoInputs : MintedTx :=
  { transactionBody :=
      { inputs := [⟨[2], 0⟩, ⟨[1], 7⟩], mint := none, withdrawals := none,
        certificates := none, proposalProcedures := none, votingProcedures := none },
    transactionWitnessSet := { redeemer := none } }

/-- A transaction with a single native mint policy and no witness
redeemers. -/
def txNativeMint : MintedTx :=
  { transactionBody :=
      { inputs := [], mint := some [([7], 1)], withdrawals := none,
        certificates := none, proposalProcedures := none, votingProcedures := none },
    transactionWitnessSet := { redeemer := none } }

/-- A resolved input locking an output at a Shelley script address. -/
def utxoScript : ResolvedInput := ⟨⟨[10], 0⟩, .postAlonzo [1, 21]⟩

/-- A transaction exercising all four purpose buckets. -/
def txFourBuckets : MintedTx :=
  { transactionBody :=
      { inputs := [⟨[10], 0⟩], mint := some [([7], 1)],
        withdrawals := some [([3, 9], 0)],
        certificates := some [.stakeDeregistration (.scripthash [5]), .other 3],
        proposalProcedures := none, votingProcedures := none },
    transactionWitnessSet := { redeemer := none } }

/-- Two stake-deregistration certificates in one order... -/
def txCertsAB : MintedTx :=
  { transactionBody :=
      { inputs := [], mint := none, withdrawals := none,
        certificates := some [.stakeDeregistration (.scripthash [1]),
          .stakeDeregistration (.scripthash [2])],
        proposalProcedures := none, votingProcedures := none },
    transactionWitnessSet := { redeemer := none } }

/-- ... and the same two certificates in the other order. -/
def txCertsBA : MintedTx :=
  { transactionBody :=
      { inputs := [], mint := none, withdrawals := none,
        certificates := some [.stakeDeregistration (.scripthash [2]),
          .stakeDeregistration (.scripthash [1])],
        proposalProcedures := none, votingProcedures := none },
    transactionWitnessSet := { redeemer := none } }

/-- An `EvalResult` with the given machine result and irrelevant budget and
logs. -/
def mkEvalResult (res : Except MachineError Term) : EvalResult :=
  { result := res, remainingBudget := ⟨0, 0⟩, initialBudget := ⟨0, 0⟩, logs := [] }

/-! ### Order properties of the comparators -/

theorem bytesLtB_cons (x y : Nat) (xs ys : Bytes) :
    bytesLtB (x :: xs) (y :: ys) =
      if x < y then true else if y < x then false else bytesLtB xs ys := rfl

theorem bytesLtB_irrefl (a : Bytes) : bytesLtB a a = false := by
  induction a with
  | nil => rfl
  | cons x xs ih => simp [bytesLtB_cons, ih]

theorem bytesLtB_eq_of_not : ∀ {a b : Bytes},
    bytesLtB a b = false → bytesLtB b a = false → a = b
  | [], [], _, _ => rfl
  | [], _ :: _, h, _ => by simp [bytesLtB] at h
  | _ :: _, [], _, h => by simp [bytesLtB] at h
  | x :: xs, y :: ys, h₁, h₂ => by
    rw [bytesLtB_cons] at h₁ h₂
    rcases Nat.lt_trichotomy x y with hxy | rfl | hxy
    · simp [hxy] at h₁
    · simp only [Nat.lt_irrefl, if_false] at h₁ h₂
      rw [bytesLtB_eq_of_not h₁ h₂]
    · simp [hxy] at h₂

theorem bytesLtB_asymm : ∀ {a b : Bytes}, bytesLtB a b = true → bytesLtB b a = false
  | [], b, _ => by cases b <;> rfl
  | _ :: _, [], h => by simp [bytesLtB] at h
  | x :: xs, y :: ys, h => by
    rw [bytesLtB_cons] at h ⊢
    rcases Nat.lt_trichotomy x y with hxy | rfl | hxy
    · simp [hxy, Nat.lt_asymm hxy]
    · simp only [Nat.lt_irrefl, if_false] at h ⊢
      exact bytesLtB_asymm h
    · simp [hxy, Nat.lt_asymm hxy] at h

theorem bytesLtB_trans : ∀ {a b c : Bytes},
    bytesLtB a b = true → bytesLtB b c = true → bytesLtB a c = true
  | [], b, c, h₁, h₂ => by
    cases b with
    | nil => simp [bytesLtB] at h₁
    | cons y ys =>
      cases c with
      | nil => simp [bytesLtB] at h₂
      | cons z zs => rfl
  | _ :: _, [], _, h₁, _ => by simp [bytesLtB] at h₁
  | _ :: _, _ :: _, [], _, h₂ => by simp [bytesLtB] at h₂
  | x :: xs, y :: ys, z :: zs, h₁, h₂ => by
    rw [bytesLtB_cons] at h₁ h₂ ⊢
    rcases Nat.lt_trichotomy x y with hxy | rfl | hxy
    · rcases Nat.lt_trichotomy y z with hyz | rfl | hyz
      · simp [Nat.lt_trans hxy hyz]
      · simp [hxy]
      · simp [hyz, Nat.lt_asymm hyz] at h₂
    · simp only [Nat.lt_irrefl, if_false] at h₁
      rcases Nat.lt_trichotomy x z with hxz | rfl | hxz
      · simp [hxz]
      · simp only [Nat.lt_irrefl, if_false] at h₂ ⊢
        exact bytesLtB_trans h₁ h₂
      · simp [hxz, Nat.lt_asymm hxz] at h₂
    · simp [hxy, Nat.lt_asymm hxy] at h₁

/-- The Bool comparator decides the byte-lexicographic strict order. -/
theorem bytesLtB_iff_lex : ∀ {a b : Bytes},
    bytesLtB a b = true ↔ List.Lex (· < ·) a b
  | [], [] => by
    simp only [bytesLtB, Bool.false_eq_true, false_iff]
    exact List.Lex.not_nil_right _ _
  | [], _ :: _ => by
    simp only [bytesLtB, true_iff]
    exact .nil
  | _ :: _, [] => by
    simp only [bytesLtB, Bool.false_eq_true, false_iff]
    exact List.Lex.not_nil_right _ _
  | x :: xs, y :: ys => by
    rw [bytesLtB_cons]
    rcases Nat.lt_trichotomy x y with hxy | rfl | hxy
    · simp only [hxy, if_true, true_iff]
      exact .rel hxy
    · simp only [Nat.lt_irrefl, if_false]
      rw [bytesLtB_iff_lex]
      constructor
      · exact .cons
      · intro h
        cases h with
        | cons h => exact h
        | rel h => exact absurd h (Nat.lt_irrefl x)
    · have hnot : ¬x < y := Nat.lt_asymm hxy
      simp only [hnot, if_false, hxy, if_true, Bool.false_eq_true, false_iff]
      intro h
      cases h with
      | cons h => exact absurd rfl (Nat.ne_of_lt hxy).symm
      | rel h => exact absurd h hnot

theorem bytesLeB_total (a b : Bytes) : bytesLeB a b = true ∨ bytesLeB b a = true := by
  unfold bytesLeB
  rcases h : bytesLtB b a with _ | _
  · simp
  · simp [bytesLtB_asymm h]

theorem bytesLeB_trans {a b c : Bytes} (h₁ : bytesLeB a b = true)
    (h₂ : bytesLeB b c = true) : bytesLeB a c = true := by
  unfold bytesLeB at h₁ h₂ ⊢
  simp only [Bool.not_eq_true'] at h₁ h₂ ⊢
  rcases h : bytesLtB c a with _ | _
  · rfl
  · rcases hbc : bytesLtB b c with _ | _
    · have heq : b = c := bytesLtB_eq_of_not hbc h₂
      rw [← heq] at h
      rw [h] at h₁
      exact h₁
    · have := bytesLtB_trans hbc h
      rw [this] at h₁
      exact h₁

theorem bytesLeB_antisymm {a b : Bytes} (h₁ : bytesLeB a b = true)
    (h₂ : bytesLeB b a = true) : a = b := by
  unfold bytesLeB at h₁ h₂
  simp only [Bool.not_eq_true'] at h₁ h₂
  exact bytesLtB_eq_of_not h₂ h₁

/-- Characterization of the spend comparator: transaction id strictly
smaller, or equal ids and index less-or-equal. -/
theorem inputLeB_eq_true (a b : TransactionInput) :
    inputLeB a b = true ↔
      (bytesLtB a.transactionId b.transactionId = true ∨
        (a.transactionId = b.transactionId ∧ a.index ≤ b.index)) := by
  unfold inputLeB
  rcases hab : bytesLtB a.transactionId b.transactionId with _ | _
  · rcases hba : bytesLtB b.transactionId a.transactionId with _ | _
    · have heq : a.transactionId = b.transactionId := bytesLtB_eq_of_not hab hba
      simp [heq]
    · simp only [if_true, if_false, Bool.false_eq_true, false_iff]
      rintro (h | ⟨heq, -⟩)
      · cases h
      · rw [heq, bytesLtB_irrefl] at hba
        cases hba
  · simp

theorem inputLeB_total (a b : TransactionInput) :
    inputLeB a b = true ∨ inputLeB b a = true := by
  rw [inputLeB_eq_true, inputLeB_eq_true]
  rcases hab : bytesLtB a.transactionId b.transactionId with _ | _
  · rcases hba : bytesLtB b.transactionId a.transactionId with _ | _
    · have heq : a.transactionId = b.transactionId := bytesLtB_eq_of_not hab hba
      rcases Nat.le_total a.index b.index with h | h
      · exact Or.inl (Or.inr ⟨heq, h⟩)
      · exact Or.inr (Or.inr ⟨heq.symm, h⟩)
    · exact Or.inr (Or.inl rfl)
  · exact Or.inl (Or.inl rfl)

theorem inputLeB_trans {a b c : TransactionInput} (h₁ : inputLeB a b = true)
    (h₂ : inputLeB b c = true) : inputLeB a c = true := by
  rw [inputLeB_eq_true] at h₁ h₂ ⊢
  rcases h₁ with h₁ | ⟨e₁, i₁⟩
  · rcases h₂ with h₂ | ⟨e₂, i₂⟩
    · exact Or.inl (bytesLtB_trans h₁ h₂)
    · exact Or.inl (e₂ ▸ h₁)
  · rcases h₂ with h₂ | ⟨e₂, i₂⟩
    · exact Or.inl (e₁ ▸ h₂)
    · exact Or.inr ⟨e₁.trans e₂, Nat.le_trans i₁ i₂⟩

theorem inputLeB_antisymm {a b : TransactionInput} (h₁ : inputLeB a b = true)
    (h₂ : inputLeB b a = true) : a = b := by
  rw [inputLeB_eq_true] at h₁ h₂
  rcases h₁ with h₁ | ⟨e₁, i₁⟩
  · rcases h₂ with h₂ | ⟨e₂, i₂⟩
    · rw [bytesLtB_asymm h₁] at h₂
      cases h₂
    · rw [e₂, bytesLtB_irrefl] at h₁
      cases h₁
  · rcases h₂ with h₂ | ⟨e₂, i₂⟩
    · rw [e₁, bytesLtB_irrefl] at h₂
      cases h₂
    · exact TransactionInput.ext e₁ (Nat.le_antisymm i₁ i₂)

/-! ### Properties of the insertion sort -/

theorem insertLeB_perm (le : α → α → Bool) (a : α) :
    ∀ l : List α, (insertLeB le a l).Perm (a :: l)
  | [] => List.Perm.refl _
  | b :: l => by
    unfold insertLeB
    rcases h : le a b with _ | _
    · simp only [h, Bool.false_eq_true, if_false]
      exact ((insertLeB_perm le a l).cons b).trans (List.Perm.swap a b l)
    · simp [h]

theorem sortByB_perm (le : α → α → Bool) :
    ∀ l : List α, (sortByB le l).Perm l
  | [] => List.Perm.refl _
  | a :: l => (insertLeB_perm le a (sortByB le l)).trans ((sortByB_perm le l).cons a)

theorem mem_insertLeB {le : α → α → Bool} {a x : α} {l : List α} :
    x ∈ insertLeB le a l ↔ x = a ∨ x ∈ l := by
  constructor
  · intro hx
    have h := ((insertLeB_perm le a l).mem_iff).1 hx
    simpa using h
  · intro hx
    apply ((insertLeB_perm le a l).mem_iff).2
    simpa using hx

theorem insertLeB_pairwise {le : α → α → Bool}
    (htot : ∀ a b, le a b = true ∨ le b a = true)
    (htrans : ∀ a b c, le a b = true → le b c = true → le a c = true)
    (a : α) : ∀ {l : List α},
    List.Pairwise (fun x y => le x y = true) l →
    List.Pairwise (fun x y => le x y = true) (insertLeB le a l)
  | [], _ => List.Pairwise.cons (by simp) List.Pairwise.nil
  | b :: l, hp => by
    unfold insertLeB
    rcases hab : le a b with _ | _
    · simp only [hab, Bool.false_eq_true, if_false]
      rcases List.pairwise_cons.1 hp with ⟨hb, hl⟩
      have hba : le b a = true := (htot a b).resolve_left (by simp [hab])
      refine List.pairwise_cons.2 ⟨?_, insertLeB_pairwise htot htrans a hl⟩
      intro y hy
      rcases mem_insertLeB.1 hy with rfl | hy
      · exact hba
      · exact hb y hy
    · simp only [hab, if_true]
      rcases List.pairwise_cons.1 hp with ⟨hb, hl⟩
      refine List.pairwise_cons.2 ⟨?_, hp⟩
      intro y hy
      rcases List.mem_cons.1 hy with rfl | hy
      · exact hab
      · exact htrans a b y hab (hb y hy)

theorem sortByB_pairwise {le : α → α → Bool}
    (htot : ∀ a b, le a b = true ∨ le b a = true)
    (htrans : ∀ a b c, le a b = true → le b c = true → le a c = true) :
    ∀ l : List α, List.Pairwise (fun x y => le x y = true) (sortByB le l)
  | [] => List.Pairwise.nil
  | a :: l => insertLeB_pairwise htot htrans a (sortByB_pairwise htot htrans l)

/-- With an antisymmetric comparator, sorting is invariant under
permutation of the input: there is a single sorted arrangement. -/
theorem sortByB_eq_of_perm {le : α → α → Bool}
    (htot : ∀ a b, le a b = true ∨ le b a = true)
    (htrans : ∀ a b c, le a b = true → le b c = true → le a c = true)
    (hanti : ∀ a b, le a b = true → le b a = true → a = b)
    {l₁ l₂ : List α} (h : l₁.Perm l₂) : sortByB le l₁ = sortByB le l₂ := by
  haveI : IsAntisymm α (fun x y => le x y = true) := ⟨hanti⟩
  exact List.eq_of_perm_of_sorted
    ((sortByB_perm le l₁).trans (h.trans (sortByB_perm le l₂).symm))
    (sortByB_pairwise htot htrans l₁)
    (sortByB_pairwise htot htrans l₂)

/-! ### Inversion and classification lemmas for the passes -/

/-- `validate_missing_scripts` can only succeed or panic: no code path
constructs an `Err` value. -/
theorem validateMissingScripts_never_err (needed : ScriptsNeeded)
    (txscripts : List (Bytes × ScriptVersion)) :
    (validateMissingScripts needed txscripts).isErrB = false := by
  unfold validateMissingScripts
  split <;> rfl

/-- `validate_missing_scripts` succeeds exactly on hash-set equality. -/
theorem validateMissingScripts_ok_iff (needed : ScriptsNeeded)
    (txscripts : List (Bytes × ScriptVersion)) :
    validateMissingScripts needed txscripts = .ok () ↔
      ((∀ h ∈ needed.map Prod.snd, h ∈ txscripts.map Prod.fst) ∧
       (∀ h ∈ txscripts.map Prod.fst, h ∈ needed.map Prod.snd)) := by
  have hm : missingScripts needed txscripts = [] ↔
      ∀ h ∈ needed.map Prod.snd, h ∈ txscripts.map Prod.fst := by
    unfold missingScripts
    rw [List.filter_eq_nil_iff]
    simp
  have he : extraScripts needed txscripts = [] ↔
      ∀ h ∈ txscripts.map Prod.fst, h ∈ needed.map Prod.snd := by
    unfold extraScripts
    rw [List.filter_eq_nil_iff]
    simp
  unfold validateMissingScripts
  by_cases hc : missingScripts needed txscripts ≠ [] ∨ extraScripts needed txscripts ≠ []
  · rw [if_pos hc]
    constructor
    · intro h
      cases h
    · intro ⟨h1, h2⟩
      rcases hc with hc | hc
      · exact absurd (hm.2 h1) hc
      · exact absurd (he.2 h2) hc
  · rw [if_neg hc]
    push_neg at hc
    constructor
    · intro _
      exact ⟨hm.1 hc.1, he.1 hc.2⟩
    · intro _
      rfl

/-- A successful spending pass is the `filterMap` of its per-input view,
in input order. -/
theorem spendPass_ok {utxos : List ResolvedInput} :
    ∀ {l : List TransactionInput} {res : ScriptsNeeded},
      spendPass utxos l = .ok res → res = l.filterMap (spendView utxos)
  | [], res, h => by
    cases h
    rfl
  | input :: rest, res, h => by
    rw [spendPass] at h
    split at h
    · exact RunResult.noConfusion h
    · rename_i utxo hl
      split at h
      · exact RunResult.noConfusion h
      · rename_i a ha
        rcases hr : spendPass utxos rest with tail | e | m <;> rw [hr] at h
        · cases a with
          | shelley p =>
            cases p with
            | script hs =>
              cases h
              simp [List.filterMap_cons, spendView, hl, ha, spendPass_ok hr]
            | key k =>
              cases h
              simp [List.filterMap_cons, spendView, hl, ha, spendPass_ok hr]
          | stake p =>
            cases h
            simp [List.filterMap_cons, spendView, hl, ha, spendPass_ok hr]
          | byron p =>
            cases h
            simp [List.filterMap_cons, spendView, hl, ha, spendPass_ok hr]
        · exact RunResult.noConfusion h
        · exact RunResult.noConfusion h

/-- A successful rewarding pass is the `filterMap` of its per-entry view,
in input order. -/
theorem rewardPass_ok : ∀ {ws : List (Bytes × Nat)} {res : ScriptsNeeded},
    rewardPass ws = .ok res → res = ws.filterMap rewardView
  | [], res, h => by
    cases h
    rfl
  | (acnt, c) :: rest, res, h => by
    rw [rewardPass] at h
    rcases ha : addressFromBytes acnt with e | a <;> rw [ha] at h
    · exact RunResult.noConfusion h
    · cases a with
      | stake p =>
        cases p with
        | script hs =>
          rcases hr : rewardPass rest with tail | e | m <;> rw [hr] at h
          · cases h
            simp [List.filterMap_cons, rewardView, ha, rewardPass_ok hr]
          · exact RunResult.noConfusion h
          · exact RunResult.noConfusion h
        | stake hs =>
          simp [List.filterMap_cons, rewardView, ha, rewardPass_ok h]
      | shelley p =>
        simp [List.filterMap_cons, rewardView, ha, rewardPass_ok h]
      | byron p =>
        simp [List.filterMap_cons, rewardView, ha, rewardPass_ok h]

/-- Inversion of a successful `scripts_needed` run: both fallible passes
succeeded, the governance fields are absent, and the output is the
four-bucket concatenation. -/
theorem scriptsNeeded_ok {tx : MintedTx} {utxos : List ResolvedInput}
    {needed : ScriptsNeeded} (h : scriptsNeeded tx utxos = .ok needed) :
    ∃ spend reward,
      spendPass utxos tx.transactionBody.inputs = .ok spend ∧
      rewardPass (tx.transactionBody.withdrawals.getD []) = .ok reward ∧
      tx.transactionBody.proposalProcedures = none ∧
      tx.transactionBody.votingProcedures = none ∧
      needed = spend ++ reward ++ certPass (tx.transactionBody.certificates.getD [])
        ++ mintPass (tx.transactionBody.mint.getD []) := by
  rw [scriptsNeeded] at h
  rcases hs : spendPass utxos tx.transactionBody.inputs with spend | e | m <;> rw [hs] at h
  · rcases hr : rewardPass (tx.transactionBody.withdrawals.getD []) with reward | e | m <;>
      rw [hr] at h
    · rcases hp : tx.transactionBody.proposalProcedures with _ | u <;> rw [hp] at h
      · rcases hv : tx.transactionBody.votingProcedures with _ | u <;> rw [hv] at h
        · simp only [Option.isSome_none, Bool.false_eq_true, if_false] at h
          cases h
          exact ⟨spend, reward, rfl, rfl, rfl, rfl, rfl⟩
        · simp only [Option.isSome_none, Option.isSome_some, Bool.false_eq_true, if_false,
            if_true] at h
          exact RunResult.noConfusion h
      · simp only [Option.isSome_some, if_true] at h
        exact RunResult.noConfusion h
    · exact RunResult.noConfusion h
    · exact RunResult.noConfusion h
  · exact RunResult.noConfusion h
  · exact RunResult.noConfusion h

/-- The spending pass only ever returns `ResolvedInputNotFound` or
`AddressDecode` errors. -/
theorem spendPass_err {utxos : List ResolvedInput} :
    ∀ {l : List TransactionInput} {e : Err}, spendPass utxos l = .err e →
      (∃ i, e = .resolvedInputNotFound i) ∨ e = .addressDecode
  | [], e, h => RunResult.noConfusion h
  | input :: rest, e, h => by
    rw [spendPass] at h
    split at h
    · cases h
      exact Or.inl ⟨input, rfl⟩
    · split at h
      · cases h
        exact Or.inr rfl
      · rename_i a ha
        rcases hr : spendPass utxos rest with tail | e2 | m <;> rw [hr] at h
        · cases a with
          | shelley p =>
            cases p with
            | script hs => exact RunResult.noConfusion h
            | key k => exact RunResult.noConfusion h
          | stake p => exact RunResult.noConfusion h
          | byron p => exact RunResult.noConfusion h
        · cases h
          exact spendPass_err hr
        · exact RunResult.noConfusion h

/-- The rewarding pass of the enumerator never returns an `Err` value:
undecodable accounts panic, every other account is kept or skipped. -/
theorem rewardPass_never_err : ∀ {ws : List (Bytes × Nat)} {e : Err},
    rewardPass ws = .err e → False
  | [], e, h => RunResult.noConfusion h
  | (acnt, c) :: rest, e, h => by
    rw [rewardPass] at h
    rcases ha : addressFromBytes acnt with e2 | a <;> rw [ha] at h
    · exact RunResult.noConfusion h
    · cases a with
      | stake p =>
        cases p with
        | script hs =>
          rcases hr : rewardPass rest with tail | e2 | m <;> rw [hr] at h
          · exact RunResult.noConfusion h
          · cases h
            exact rewardPass_never_err hr
          · exact RunResult.noConfusion h
        | stake hs => exact rewardPass_never_err h
      | shelley p => exact rewardPass_never_err h
      | byron p => exact rewardPass_never_err h

/-- `scripts_needed` only ever returns `ResolvedInputNotFound` or
`AddressDecode` errors. -/
theorem scriptsNeeded_err {tx : MintedTx} {utxos : List ResolvedInput} {e : Err}
    (h : scriptsNeeded tx utxos = .err e) :
    (∃ i, e = .resolvedInputNotFound i) ∨ e = .addressDecode := by
  rw [scriptsNeeded] at h
  rcases hs : spendPass utxos tx.transactionBody.inputs with spend | e2 | m <;> rw [hs] at h
  · rcases hr : rewardPass (tx.transactionBody.withdrawals.getD []) with reward | e2 | m <;>
      rw [hr] at h
    · by_cases hp : tx.transactionBody.proposalProcedures.isSome = true
      · simp only [hp, if_true] at h
        exact RunResult.noConfusion h
      · simp only [hp, if_false] at h
        by_cases hv : tx.transactionBody.votingProcedures.isSome = true
        · simp only [hv, if_true] at h
          exact RunResult.noConfusion h
        · simp only [hv, if_false] at h
          exact RunResult.noConfusion h
    · cases h
      exact absurd hr (fun hx => rewardPass_never_err hx)
    · exact RunResult.noConfusion h
  · cases h
    exact spendPass_err hs
  · exact RunResult.noConfusion h

/-- The `Rewarding` loop of `build_redeemer_key` can only return the
`BadWithdrawalAddress` error. -/
theorem rewardingLoop_err {racnt : StakeCredential} :
    ∀ {l : List Bytes} {idx : Nat} {acc : Option RedeemersKey} {e : Err},
      rewardingLoop racnt idx acc l = .err e → e = .badWithdrawalAddress
  | [], _, _, _, h => RunResult.noConfusion h
  | x :: rest, idx, acc, e, h => by
    rw [rewardingLoop] at h
    rcases ha : addressFromBytes x with e2 | a <;> rw [ha] at h
    · exact RunResult.noConfusion h
    · cases a with
      | stake p => exact rewardingLoop_err h
      | shelley p =>
        cases h
        rfl
      | byron p =>
        cases h
        rfl

/-- `build_redeemer_key` can only return the `BadWithdrawalAddress` error. -/
theorem buildRedeemerKey_err {tx : MintedTx} {p : ScriptPurpose} {e : Err}
    (h : buildRedeemerKey tx p = .err e) : e = .badWithdrawalAddress := by
  cases p with
  | minting hash => exact RunResult.noConfusion h
  | spending txin => exact RunResult.noConfusion h
  | certifying d => exact RunResult.noConfusion h
  | rewarding racnt => exact rewardingLoop_err h

/-- When every needed key computes without failure, the accumulation loop
of `has_exact_set_of_redeemers` is the pure `requiredRedeemers` view. -/
theorem redeemersNeededAux_eq {tx : MintedTx} {txScripts : List (Bytes × ScriptVersion)} :
    ∀ {needed : ScriptsNeeded},
      (∀ ph ∈ needed, (buildRedeemerKey tx ph.1).isOkB = true) →
      redeemersNeededAux tx txScripts needed =
        .ok (requiredRedeemers tx txScripts needed)
  | [], _ => rfl
  | (purpose, hash) :: rest, hk => by
    have hkh := hk (purpose, hash) (List.mem_cons_self _ _)
    have hkr : ∀ ph ∈ rest, (buildRedeemerKey tx ph.1).isOkB = true :=
      fun ph hm => hk ph (List.mem_cons_of_mem _ hm)
    rw [redeemersNeededAux]
    rcases hbk : buildRedeemerKey tx purpose with k | e | m
    · rw [redeemersNeededAux_eq hkr]
      rcases k with _ | key <;>
        rcases hls : lookupScript txScripts hash with _ | v
      · simp [requiredRedeemers, List.filterMap_cons, hbk, hls]
      · cases v <;> simp [requiredRedeemers, List.filterMap_cons, hbk, hls]
      · simp [requiredRedeemers, List.filterMap_cons, hbk, hls]
      · cases v <;> simp [requiredRedeemers, List.filterMap_cons, hbk, hls]
    · rw [hbk] at hkh
      exact absurd hkh (by simp [RunResult.isOkB])
    · rw [hbk] at hkh
      exact absurd hkh (by simp [RunResult.isOkB])

/-- The accumulation loop of `has_exact_set_of_redeemers` only ever returns
the `BadWithdrawalAddress` error. -/
theorem redeemersNeededAux_err {tx : MintedTx} {txScripts : List (Bytes × ScriptVersion)} :
    ∀ {needed : ScriptsNeeded} {e : Err},
      redeemersNeededAux tx txScripts needed = .err e → e = .badWithdrawalAddress
  | [], _, h => RunResult.noConfusion h
  | (purpose, hash) :: rest, e, h => by
    rw [redeemersNeededAux] at h
    rcases hbk : buildRedeemerKey tx purpose with k | e2 | m <;> rw [hbk] at h
    · rcases hr : redeemersNeededAux tx txScripts rest with tail | e2 | m <;> rw [hr] at h
      · rcases k with _ | key <;>
          rcases hls : lookupScript txScripts hash with _ | v <;> rw [hls] at h
        · exact RunResult.noConfusion h
        · cases v <;> exact RunResult.noConfusion h
        · exact RunResult.noConfusion h
        · cases v <;> exact RunResult.noConfusion h
      · cases h
        exact redeemersNeededAux_err hr
      · exact RunResult.noConfusion h
    · cases h
      exact buildRedeemerKey_err hbk
    · exact RunResult.noConfusion h

/-- Evaluation of `has_exact_set_of_redeemers` once the accumulation loop
has succeeded: the symmetric-difference test on the computed entries. -/
theorem hasExactSetOfRedeemers_eval {tx : MintedTx} {needed : ScriptsNeeded}
    {txScripts : List (Bytes × ScriptVersion)}
    {rn : List (RedeemersKey × ScriptPurpose × Bytes)}
    (hr : redeemersNeededAux tx txScripts needed = .ok rn) :
    hasExactSetOfRedeemers tx needed txScripts =
      if rn.filter (fun x => !(decide (x.1 ∈ witnessRedeemerKeys tx))) ≠ [] ∨
         (witnessRedeemerKeys tx).filter (fun x => !(decide (x ∈ rn.map Prod.fst))) ≠ [] then
        .err (.requiredRedeemersMismatch
          (rn.filter (fun x => !(decide (x.1 ∈ witnessRedeemerKeys tx))))
          ((witnessRedeemerKeys tx).filter (fun x => !(decide (x ∈ rn.map Prod.fst)))))
      else
        .ok () := by
  rw [hasExactSetOfRedeemers, hr]

/-- Classification of `has_exact_set_of_redeemers` failures: either the key
computation failed with `BadWithdrawalAddress`, or the result is the
symmetric-difference diagnostic over some computed entry list. -/
theorem hasExactSetOfRedeemers_err {tx : MintedTx} {needed : ScriptsNeeded}
    {txScripts : List (Bytes × ScriptVersion)} {e : Err}
    (h : hasExactSetOfRedeemers tx needed txScripts = .err e) :
    e = .badWithdrawalAddress ∨
      ∃ rn, redeemersNeededAux tx txScripts needed = .ok rn ∧
        e = .requiredRedeemersMismatch
          (rn.filter (fun x => !(decide (x.1 ∈ witnessRedeemerKeys tx))))
          ((witnessRedeemerKeys tx).filter
            (fun x => !(decide (x ∈ rn.map Prod.fst)))) := by
  rcases hr : redeemersNeededAux tx txScripts needed with rn | e2 | m
  · rw [hasExactSetOfRedeemers_eval hr] at h
    split at h
    · cases h
      exact Or.inr ⟨rn, rfl, rfl⟩
    · exact RunResult.noConfusion h
  · rw [hasExactSetOfRedeemers, hr] at h
    cases h
    exact Or.inl (redeemersNeededAux_err hr)
  · rw [hasExactSetOfRedeemers, hr] at h
    exact RunResult.noConfusion h

/-! ### Claim theorems -/

/-- C10: `EvalResult::failed(can_error)` is asymmetric in the error case:
with `can_error = true` a machine error counts as passing (`failed` returns
`false`) and an `Ok` result fails unless the term is exactly the constant
`Bool(false)`; with `can_error = false`, `failed` returns `true` for any
`Err`, for `Ok(Term::Error)`, and for any `Ok` constant other than
`Bool(true)` or `Unit`. -/
theorem evalResult_failed_cases :
    (∀ (r : EvalResult) (e : MachineError), r.result = .error e → r.failed true = false) ∧
    (∀ (r : EvalResult) (t : Term), r.result = .ok t →
      (r.failed true = true ↔ t ≠ .constant (.bool false))) ∧
    (∀ (r : EvalResult) (e : MachineError), r.result = .error e → r.failed false = true) ∧
    (∀ r : EvalResult, r.result = .ok .error → r.failed false = true) ∧
    (∀ (r : EvalResult) (c : Constant), r.result = .ok (.constant c) →
      c ≠ .bool true → c ≠ .unit → r.failed false = true) := by
  refine ⟨?_, ?_, ?_, ?_, ?_⟩
  · intro r e h
    simp [EvalResult.failed, h, Except.isOk, Except.toBool]
  · intro r t h
    cases t with
    | constant c =>
      cases c with
      | bool b => cases b <;> simp [EvalResult.failed, h, Except.isOk, Except.toBool]
      | integer i => simp [EvalResult.failed, h, Except.isOk, Except.toBool]
      | byteString b => simp [EvalResult.failed, h, Except.isOk, Except.toBool]
      | string sv => simp [EvalResult.failed, h, Except.isOk, Except.toBool]
      | unit => simp [EvalResult.failed, h, Except.isOk, Except.toBool]
    | var n => simp [EvalResult.failed, h, Except.isOk, Except.toBool]
    | delay t => simp [EvalResult.failed, h, Except.isOk, Except.toBool]
    | lambda t => simp [EvalResult.failed, h, Except.isOk, Except.toBool]
    | apply f a => simp [EvalResult.failed, h, Except.isOk, Except.toBool]
    | force t => simp [EvalResult.failed, h, Except.isOk, Except.toBool]
    | error => simp [EvalResult.failed, h, Except.isOk, Except.toBool]
    | builtin b => simp [EvalResult.failed, h, Except.isOk, Except.toBool]
  · intro r e h
    simp [EvalResult.failed, h, Except.isErrB]
  · intro r h
    simp [EvalResult.failed, h, Except.isErrB]
  · intro r c h hb hu
    cases c with
    | bool b =>
      cases b with
      | true => exact absurd rfl hb
      | false => simp [EvalResult.failed, h, Except.isErrB]
    | unit => exact absurd rfl hu
    | integer i => simp [EvalResult.failed, h, Except.isErrB]
    | byteString b => simp [EvalResult.failed, h, Except.isErrB]
    | string sv => simp [EvalResult.failed, h, Except.isErrB]

/-- C10 witness: the five cases evaluated at concrete results. -/
theorem evalResult_failed_cases_witness :
    (mkEvalResult (.error (.mk 0))).failed true = false ∧
    (mkEvalResult (.ok (.constant (.integer 5)))).failed true = true ∧
    (mkEvalResult (.error (.mk 0))).failed false = true ∧
    (mkEvalResult (.ok .error)).failed false = true ∧
    (mkEvalResult (.ok (.constant (.integer 5)))).failed false = true :=
  ⟨evalResult_failed_cases.1 _ _ rfl,
   (evalResult_failed_cases.2.1 _ _ rfl).mpr (by decide),
   evalResult_failed_cases.2.2.1 _ _ rfl,
   evalResult_failed_cases.2.2.2.1 _ rfl,
   evalResult_failed_cases.2.2.2.2 _ _ rfl (by decide) (by decide)⟩

/-- C1 (code bug): `validate_missing_scripts` succeeds exactly on hash-set
equality and computes the `N` minus `S` and `S` minus `N` diagnostic sides,
but on any mismatch it panics through `unreachable!` instead of returning a
`ScriptSetMismatch` error by value: no execution returns an `Err`. -/
theorem validateMissingScripts_panics_on_mismatch :
    (∀ (needed : ScriptsNeeded) (txscripts : List (Bytes × ScriptVersion)),
      (validateMissingScripts needed txscripts).isErrB = false) ∧
    validateMissingScripts [(.minting [1], [1])] [([1], .v2)] = .ok () ∧
    validateMissingScripts [(.minting [1], [1])] [([2], .v2)] =
      .panicked "internal error: entered unreachable code: Mismatch in required scripts" ∧
    missingScripts [(.minting [1], [1])] [([2], .v2)] = [[1]] ∧
    extraScripts [(.minting [1], [1])] [([2], .v2)] = [[2]] :=
  ⟨validateMissingScripts_never_err, by decide, by decide, by decide, by decide⟩

/-- C2 counterexample: with `proposal_procedures` present, `scripts_needed`
panics at the governance assertion; it does not return a
`GovernanceUnsupported` error by value. -/
theorem scriptsNeeded_governance_counterexample :
    scriptsNeeded txGov [] =
      .panicked "assertion failed: txb.proposal_procedures.is_none()" ∧
    scriptsNeeded txGov [] ≠ .err .governanceUnsupported :=
  ⟨by decide, by decide⟩

/-- C2 (amended): when `proposal_procedures` or `voting_procedures` is
present, `scripts_needed` never passes silently: no run returns `Ok` (the
spending and rewarding passes may fail first; any run reaching the
governance check panics at the assertion). -/
theorem scriptsNeeded_governance_never_ok (tx : MintedTx) (utxos : List ResolvedInput)
    (h : tx.transactionBody.proposalProcedures.isSome = true ∨
         tx.transactionBody.votingProcedures.isSome = true) :
    (scriptsNeeded tx utxos).isOkB = false := by
  rw [scriptsNeeded]
  rcases hs : spendPass utxos tx.transactionBody.inputs with spend | e | m
  · rcases hr : rewardPass (tx.transactionBody.withdrawals.getD []) with reward | e | m
    · by_cases hp : tx.transactionBody.proposalProcedures.isSome = true
      · simp [hp, RunResult.isOkB]
      · rcases h with h | h
        · exact absurd h hp
        · simp [hp, h, RunResult.isOkB]
    · rfl
    · rfl
  · rfl
  · rfl

/-- C2 witness: the amended claim at the concrete governance transaction. -/
theorem scriptsNeeded_governance_never_ok_witness :
    (scriptsNeeded txGov []).isOkB = false :=
  scriptsNeeded_governance_never_ok txGov [] (Or.inl rfl)

/-- If every account in the (sorted) list decodes and at least one decodes
to a non-stake address, the `Rewarding` loop of `build_redeemer_key`
returns `BadWithdrawalAddress`. -/
theorem rewardingLoop_err_of_nonstake {racnt : StakeCredential} :
    ∀ {l : List Bytes} (idx : Nat) (acc : Option RedeemersKey),
      (∀ x ∈ l, (addressFromBytes x).isOk = true) →
      (∃ x ∈ l, ∃ a, addressFromBytes x = .ok a ∧ isStakeAddress a = false) →
      rewardingLoop racnt idx acc l = .err .badWithdrawalAddress
  | [], _, _, _, hex => absurd hex (by simp)
  | x :: rest, idx, acc, hall, hex => by
    rw [rewardingLoop]
    have hx := hall x (List.mem_cons_self _ _)
    rcases ha : addressFromBytes x with e | a
    · rw [ha] at hx
      exact absurd hx (by simp [Except.isOk, Except.toBool])
    · cases a with
      | stake p =>
        apply rewardingLoop_err_of_nonstake
        · exact fun y hy => hall y (List.mem_cons_of_mem _ hy)
        · rcases hex with ⟨y, hy, a2, ha2, hs2⟩
          rcases List.mem_cons.1 hy with rfl | hy
          · rw [ha] at ha2
            cases ha2
            simp [isStakeAddress] at hs2
          · exact ⟨y, hy, a2, ha2, hs2⟩
      | shelley p => rfl
      | byron p => rfl

/-- C3 counterexample: a withdrawal key decoding to a non-stake address
does not make `scripts_needed` fail; the entry is silently skipped and the
enumerator succeeds emitting no purposes. -/
theorem scriptsNeeded_nonstake_withdrawal_counterexample :
    scriptsNeeded txShelleyWithdrawal [] = .ok [] ∧
    scriptsNeeded txShelleyWithdrawal [] ≠ .err .badWithdrawalAddress :=
  ⟨by decide, by decide⟩

/-- C3 (amended): the rewarding pass of `scripts_needed` silently skips
withdrawal keys decoding to non-stake addresses (no purpose, no error);
`BadWithdrawalAddress` is raised instead by `build_redeemer_key` when it
resolves a `Rewarding` purpose while some withdrawal key decodes to a
non-stake address. -/
theorem badWithdrawalAddress_raised_in_resolver :
    (∀ ws : List (Bytes × Nat),
        (∀ aw ∈ ws, ∃ a, addressFromBytes aw.1 = .ok a ∧ isStakeAddress a = false) →
        rewardPass ws = .ok []) ∧
    (∀ (tx : MintedTx) (racnt : StakeCredential),
        (∀ aw ∈ tx.transactionBody.withdrawals.getD [],
          (addressFromBytes aw.1).isOk = true) →
        (∃ aw ∈ tx.transactionBody.withdrawals.getD [],
          ∃ a, addressFromBytes aw.1 = .ok a ∧ isStakeAddress a = false) →
        buildRedeemerKey tx (.rewarding racnt) = .err .badWithdrawalAddress) := by
  constructor
  · intro ws hws
    induction ws with
    | nil => rfl
    | cons aw rest ih =>
      obtain ⟨acnt, c⟩ := aw
      obtain ⟨a, ha, hs⟩ := hws (acnt, c) (List.mem_cons_self _ _)
      rw [rewardPass, ha]
      cases a with
      | stake p =>
        simp [isStakeAddress] at hs
      | shelley p =>
        exact ih (fun aw haw => hws aw (List.mem_cons_of_mem _ haw))
      | byron p =>
        exact ih (fun aw haw => hws aw (List.mem_cons_of_mem _ haw))
  · intro tx racnt hall hex
    show rewardingLoop racnt 0 none
      (sortByB bytesLeB ((tx.transactionBody.withdrawals.getD []).map Prod.fst)) =
      .err .badWithdrawalAddress
    apply rewardingLoop_err_of_nonstake
    · intro x hx
      rw [(sortByB_perm bytesLeB _).mem_iff] at hx
      rcases List.mem_map.1 hx with ⟨aw, haw, rfl⟩
      exact hall aw haw
    · rcases hex with ⟨aw, haw, a, ha, hs⟩
      refine ⟨aw.1, ?_, a, ha, hs⟩
      rw [(sortByB_perm bytesLeB _).mem_iff]
      exact List.mem_map_of_mem Prod.fst haw

/-- C3 witness: the amended claim at concrete inputs. -/
theorem badWithdrawalAddress_raised_in_resolver_witness :
    rewardPass [([0, 5], 0)] = .ok [] ∧
    buildRedeemerKey txMixedWithdrawals (.rewarding (.scripthash [9])) =
      .err .badWithdrawalAddress :=
  ⟨badWithdrawalAddress_raised_in_resolver.1 _
      (by
        intro aw haw
        rcases List.mem_singleton.1 haw with rfl
        exact ⟨.shelley (.key [5]), rfl, rfl⟩),
   badWithdrawalAddress_raised_in_resolver.2 txMixedWithdrawals _
      (by decide)
      ⟨([0, 1], 5), by decide, .shelley (.key [1]), rfl, rfl⟩⟩

/-- The spending pass only emits `Spending` purposes, for the input at
hand. -/
theorem spendView_shape {utxos : List ResolvedInput} {i : TransactionInput}
    {ph : ScriptPurpose × Bytes} (h : spendView utxos i = some ph) :
    ∃ x, ph = (.spending i, x) := by
  unfold spendView at h
  split at h
  · split at h
    · cases h
      exact ⟨_, rfl⟩
    · cases h
  · cases h

/-- The rewarding pass only emits `Rewarding` purposes with a script-hash
credential. -/
theorem rewardView_shape {aw : Bytes × Nat} {ph : ScriptPurpose × Bytes}
    (h : rewardView aw = some ph) :
    ∃ x, ph = (.rewarding (.scripthash x), x) := by
  unfold rewardView at h
  split at h
  · cases h
    exact ⟨_, rfl⟩
  · cases h

/-- The certifying pass emits purposes only for stake deregistration and
stake delegation certificates with a script-hash credential. -/
theorem certPass_mem {certs : List Certificate} {ph : ScriptPurpose × Bytes}
    (h : ph ∈ certPass certs) :
    ∃ c x, ph = (.certifying c, x) ∧
      (c = .stakeDeregistration (.scripthash x) ∨
        ∃ pool, c = .stakeDelegation (.scripthash x) pool) := by
  unfold certPass at h
  rcases List.mem_filterMap.1 h with ⟨c, hc, hsome⟩
  cases c with
  | stakeDeregistration cred =>
    cases cred with
    | scripthash x =>
      cases hsome
      exact ⟨_, x, rfl, Or.inl rfl⟩
    | addrKeyhash k => cases hsome
  | stakeDelegation cred pool =>
    cases cred with
    | scripthash x =>
      cases hsome
      exact ⟨_, x, rfl, Or.inr ⟨pool, rfl⟩⟩
    | addrKeyhash k => cases hsome
  | stakeRegistration cred => cases hsome
  | other t => cases hsome

/-- The minting pass emits one `Minting` purpose per policy id. -/
theorem mintPass_mem {mint : List (Bytes × Int)} {ph : ScriptPurpose × Bytes}
    (h : ph ∈ mintPass mint) : ∃ p, ph = (.minting p, p) := by
  unfold mintPass at h
  rcases List.mem_map.1 h with ⟨pr, hpr, heq⟩
  exact ⟨pr.1, heq.symm⟩

/-- C7: a successful enumeration is the concatenation, in this fixed
sequence, of the spending, rewarding, certifying and minting buckets, each
bucket in the input order of its container in the transaction body; and
certifying purposes are emitted only for stake-deregistration and
stake-delegation certificates whose credential is a script hash. -/
theorem scriptsNeeded_bucket_order (tx : MintedTx) (utxos : List ResolvedInput)
    (needed : ScriptsNeeded) (h : scriptsNeeded tx utxos = .ok needed) :
    needed =
      tx.transactionBody.inputs.filterMap (spendView utxos) ++
      (tx.transactionBody.withdrawals.getD []).filterMap rewardView ++
      certPass (tx.transactionBody.certificates.getD []) ++
      mintPass (tx.transactionBody.mint.getD []) ∧
    (∀ (c : Certificate) (x : Bytes), (ScriptPurpose.certifying c, x) ∈ needed →
      c = .stakeDeregistration (.scripthash x) ∨
        ∃ pool, c = .stakeDelegation (.scripthash x) pool) := by
  obtain ⟨spend, reward, hsp, hrw, hpp, hvp, heq⟩ := scriptsNeeded_ok h
  have hspend := spendPass_ok hsp
  have hreward := rewardPass_ok hrw
  subst hspend
  subst hreward
  refine ⟨heq, ?_⟩
  intro c x hmem
  rw [heq] at hmem
  simp only [List.mem_append] at hmem
  rcases hmem with ((hm | hm) | hm) | hm
  · rcases List.mem_filterMap.1 hm with ⟨i, hi, hv⟩
    obtain ⟨y, hy⟩ := spendView_shape hv
    exact absurd hy (by simp)
  · rcases List.mem_filterMap.1 hm with ⟨aw, haw, hv⟩
    obtain ⟨y, hy⟩ := rewardView_shape hv
    exact absurd hy (by simp)
  · obtain ⟨c2, x2, heq2, hcond⟩ := certPass_mem hm
    simp only [Prod.mk.injEq, ScriptPurpose.certifying.injEq] at heq2
    obtain ⟨rfl, rfl⟩ := heq2
    exact hcond
  · obtain ⟨p, hp⟩ := mintPass_mem hm
    exact absurd hp (by simp)

/-- C7 witness: the four-bucket transaction enumerates in the fixed
sequence. -/
theorem scriptsNeeded_bucket_order_witness :
    [(ScriptPurpose.spending ⟨[10], 0⟩, ([21] : Bytes)),
     (.rewarding (.scripthash [9]), [9]),
     (.certifying (.stakeDeregistration (.scripthash [5])), [5]),
     (.minting [7], [7])] =
      txFourBuckets.transactionBody.inputs.filterMap (spendView [utxoScript]) ++
      (txFourBuckets.transactionBody.withdrawals.getD []).filterMap rewardView ++
      certPass (txFourBuckets.transactionBody.certificates.getD []) ++
      mintPass (txFourBuckets.transactionBody.mint.getD []) :=
  (scriptsNeeded_bucket_order txFourBuckets [utxoScript] _ (by decide)).1

/-- C5: when every needed key computes, `has_exact_set_of_redeemers`
returns `Ok` exactly when the set of computed redeemer keys for non-native
purposes equals the witness redeemer key set; otherwise it returns a
`RequiredRedeemersMismatch` whose missing side holds the computed
`(key, purpose, hash)` entries absent from the witness keys and whose
extra side holds the raw witness keys absent from the computed keys. -/
theorem hasExactSetOfRedeemers_spec (tx : MintedTx) (needed : ScriptsNeeded)
    (txScripts : List (Bytes × ScriptVersion))
    (hk : ∀ ph ∈ needed, (buildRedeemerKey tx ph.1).isOkB = true) :
    (hasExactSetOfRedeemers tx needed txScripts = .ok () ↔
      (∀ k, k ∈ (requiredRedeemers tx txScripts needed).map Prod.fst ↔
            k ∈ witnessRedeemerKeys tx)) ∧
    (hasExactSetOfRedeemers tx needed txScripts = .ok () ∨
      ∃ m e, hasExactSetOfRedeemers tx needed txScripts =
          .err (.requiredRedeemersMismatch m e) ∧
        (∀ x, x ∈ m ↔ x ∈ requiredRedeemers tx txScripts needed ∧
            x.1 ∉ witnessRedeemerKeys tx) ∧
        (∀ k, k ∈ e ↔ k ∈ witnessRedeemerKeys tx ∧
            k ∉ (requiredRedeemers tx txScripts needed).map Prod.fst)) := by
  have haux := @redeemersNeededAux_eq tx txScripts needed hk
  rw [hasExactSetOfRedeemers_eval haux]
  set rn := requiredRedeemers tx txScripts needed with hrn
  set wk := witnessRedeemerKeys tx with hwk
  have hmnil : rn.filter (fun x => !(decide (x.1 ∈ wk))) = [] ↔ ∀ x ∈ rn, x.1 ∈ wk := by
    rw [List.filter_eq_nil_iff]
    simp
  have henil : wk.filter (fun x => !(decide (x ∈ rn.map Prod.fst))) = [] ↔
      ∀ k ∈ wk, k ∈ rn.map Prod.fst := by
    rw [List.filter_eq_nil_iff]
    simp
  have hset_iff : (∀ k, k ∈ rn.map Prod.fst ↔ k ∈ wk) ↔
      ((∀ x ∈ rn, x.1 ∈ wk) ∧ (∀ k ∈ wk, k ∈ rn.map Prod.fst)) := by
    constructor
    · intro hs
      constructor
      · intro x hx
        exact (hs x.1).1 (List.mem_map_of_mem Prod.fst hx)
      · intro k hk2
        exact (hs k).2 hk2
    · intro hb k
      constructor
      · intro hk2
        rcases List.mem_map.1 hk2 with ⟨x, hx, heq⟩
        exact heq ▸ hb.1 x hx
      · exact hb.2 k
  by_cases hc :
      rn.filter (fun x => !(decide (x.1 ∈ wk))) ≠ [] ∨
      wk.filter (fun x => !(decide (x ∈ rn.map Prod.fst))) ≠ [] 
  · rw [if_pos hc]
    constructor
    · constructor
      · intro h
        exact RunResult.noConfusion h
      · intro hset
        exfalso
        obtain ⟨h1, h2⟩ := hset_iff.1 hset
        rcases hc with hcm | hce
        · exact hcm (hmnil.2 h1)
        · exact hce (henil.2 h2)
    · refine Or.inr ⟨_, _, rfl, ?_, ?_⟩
      · intro x
        rw [List.mem_filter]
        simp
      · intro k
        rw [List.mem_filter]
        simp
  · rw [if_neg hc]
    push_neg at hc
    constructor
    · exact ⟨fun _ => hset_iff.2 ⟨hmnil.1 hc.1, henil.1 hc.2⟩, fun _ => rfl⟩
    · exact Or.inl rfl

/-- C5 witness: the two-policy mint with both pointers present succeeds. -/
theorem hasExactSetOfRedeemers_spec_witness :
    hasExactSetOfRedeemers txTwoMints [(.minting [9], [9]), (.minting [3], [3])]
      [([9], .v2), ([3], .v1)] = .ok () :=
  (hasExactSetOfRedeemers_spec txTwoMints _ _ (by decide)).1.mpr
    (fun _ => List.Perm.mem_iff (by decide))

/-- Evaluation of `eval_phase_one` once the first two passes succeed. -/
theorem evalPhaseOne_eval {tx : MintedTx} {utxos : List ResolvedInput}
    {lookupTable : List (Bytes × ScriptVersion)} {needed : ScriptsNeeded}
    (h1 : scriptsNeeded tx utxos = .ok needed)
    (h2 : validateMissingScripts needed lookupTable = .ok ()) :
    evalPhaseOne tx utxos lookupTable = hasExactSetOfRedeemers tx needed lookupTable := by
  simp only [evalPhaseOne, h1, h2]

/-- C6: a purpose whose script is `Native` participates in the script-set
reconciliation — whose outcome depends only on the table's keys, never on
the stored versions — but contributes no entry to the required redeemer
set; in particular a transaction whose script purposes are all
native-backed succeeds with an empty witness redeemer map. -/
theorem native_excluded_from_redeemers :
    (∀ (needed : ScriptsNeeded) (scripts : List (Bytes × ScriptVersion))
        (f : ScriptVersion → ScriptVersion),
      validateMissingScripts needed (scripts.map (fun kv => (kv.1, f kv.2))) =
        validateMissingScripts needed scripts) ∧
    (∀ (tx : MintedTx) (utxos : List ResolvedInput) (needed : ScriptsNeeded)
        (txScripts : List (Bytes × ScriptVersion)),
      scriptsNeeded tx utxos = .ok needed →
      (∀ ph ∈ needed, lookupScript txScripts ph.2 = some .native) →
      (∀ x ∈ needed.map Prod.snd, x ∈ txScripts.map Prod.fst) →
      (∀ x ∈ txScripts.map Prod.fst, x ∈ needed.map Prod.snd) →
      (∀ ph ∈ needed, (buildRedeemerKey tx ph.1).isOkB = true) →
      witnessRedeemerKeys tx = [] →
      evalPhaseOne tx utxos txScripts = .ok ()) := by
  constructor
  · intro needed scripts f
    have hkeys : (scripts.map (fun kv => (kv.1, f kv.2))).map Prod.fst =
        scripts.map Prod.fst := by
      simp [List.map_map, Function.comp]
    unfold validateMissingScripts missingScripts extraScripts
    rw [hkeys]
  · intro tx utxos needed txScripts hneed hnat hsub1 hsub2 hk hwit
    have hval : validateMissingScripts needed txScripts = .ok () :=
      (validateMissingScripts_ok_iff needed txScripts).2 ⟨hsub1, hsub2⟩
    rw [evalPhaseOne_eval hneed hval]
    have hrn : requiredRedeemers tx txScripts needed = [] := by
      rw [requiredRedeemers, List.filterMap_eq_nil_iff]
      intro ph hph
      rw [hnat ph hph]
      rcases hbk : buildRedeemerKey tx ph.1 with k | e | m
      · rcases k with _ | key <;> rfl
      · rfl
      · rfl
    have haux := @redeemersNeededAux_eq tx txScripts needed hk
    rw [hrn] at haux
    rw [hasExactSetOfRedeemers_eval haux, hwit]
    simp

/-- C6 witness: a single native mint policy with no witness redeemers
passes the whole phase-one pipeline. -/
theorem native_excluded_from_redeemers_witness :
    evalPhaseOne txNativeMint [] [([7], .native)] = .ok () :=
  native_excluded_from_redeemers.2 txNativeMint [] [(.minting [7], [7])]
    [([7], .native)] (by decide) (by decide) (by decide) (by decide) (by decide)
    (by decide)

/-- C9: whenever `eval_phase_one` returns a `RequiredRedeemersMismatch`
diagnostic, the missing entries' keys and the extra keys are disjoint; the
missing and extra sides computed by `validate_missing_scripts` for the
`ScriptSetMismatch` diagnostic are likewise disjoint. -/
theorem mismatch_sides_disjoint :
    (∀ (tx : MintedTx) (utxos : List ResolvedInput)
        (txScripts : List (Bytes × ScriptVersion))
        (m : List (RedeemersKey × ScriptPurpose × Bytes)) (e : List RedeemersKey),
      evalPhaseOne tx utxos txScripts = .err (.requiredRedeemersMismatch m e) →
      ∀ x ∈ m, x.1 ∉ e) ∧
    (∀ (needed : ScriptsNeeded) (txScripts : List (Bytes × ScriptVersion)) (x : Bytes),
      x ∈ missingScripts needed txScripts → x ∉ extraScripts needed txScripts) := by
  constructor
  · intro tx utxos txScripts m e h x hx hxe
    rw [evalPhaseOne] at h
    rcases hs : scriptsNeeded tx utxos with needed | e2 | msg <;> simp only [hs] at h
    · rcases hv : validateMissingScripts needed txScripts with u | e3 | msg2 <;>
        simp only [hv] at h
      · rcases hasExactSetOfRedeemers_err h with hbad | ⟨rn, hrn, hmm⟩
        · exact Err.noConfusion hbad
        · injection hmm with h1 h2
          subst h1
          subst h2
          have hnin : x.1 ∉ witnessRedeemerKeys tx := by
            simpa using (List.mem_filter.1 hx).2
          exact hnin (List.mem_filter.1 hxe).1
      · have hne := validateMissingScripts_never_err needed txScripts
        rw [hv] at hne
        exact absurd hne (by simp [RunResult.isErrB])
      · exact RunResult.noConfusion h
    · injection h with h1
      rcases scriptsNeeded_err hs with ⟨i, hi⟩ | hi
      · exact Err.noConfusion (h1.symm.trans hi)
      · exact Err.noConfusion (h1.symm.trans hi)
    · exact RunResult.noConfusion h
  · intro needed txScripts x hx hxe
    unfold missingScripts at hx
    unfold extraScripts at hxe
    rw [List.mem_filter] at hx hxe
    have h1 : x ∉ txScripts.map Prod.fst := by simpa using hx.2
    exact h1 hxe.1

/-- C9 witness: a concrete mismatch with a non-empty missing side, whose
key is indeed not among the (empty) extra side. -/
theorem mismatch_sides_disjoint_witness :
    (⟨RedeemerTag.mint, 0⟩ : RedeemersKey) ∉ ([] : List RedeemersKey) :=
  mismatch_sides_disjoint.1 txNativeMint [] [([7], .v2)]
    [(⟨.mint, 0⟩, .minting [7], [7])] [] (by decide)
    (⟨.mint, 0⟩, .minting [7], [7]) (by decide)

/-- The spend comparator decides the spec's canonical input order. -/
theorem inputLeB_iff_spec {a b : TransactionInput} :
    inputLeB a b = true ↔ specSpendLe a b := by
  rw [inputLeB_eq_true]
  unfold specSpendLe
  exact or_congr bytesLtB_iff_lex Iff.rfl

/-- On a duplicate-free list, `position` finds exactly the index of the
element sitting there. -/
theorem listPosition_of_nodup {α : Type} [DecidableEq α] :
    ∀ {l : List α} (_ : l.Nodup) {j : Nat} (hj : j < l.length),
      listPosition (fun x => decide (x = l.get ⟨j, hj⟩)) l = some j
  | a :: t, _, 0, _ => by simp [listPosition]
  | a :: t, hnd, j + 1, hj => by
    have hj2 : j < t.length := Nat.lt_of_succ_lt_succ hj
    have hget : (a :: t).get ⟨j + 1, hj⟩ = t.get ⟨j, hj2⟩ := rfl
    have hmem : t.get ⟨j, hj2⟩ ∈ t := List.get_mem t j hj2
    have hne : ¬ a = (a :: t).get ⟨j + 1, hj⟩ := by
      rw [hget]
      intro he
      exact (List.nodup_cons.1 hnd).1 (he ▸ hmem)
    rw [listPosition, if_neg (by simpa using hne), hget,
      listPosition_of_nodup (List.nodup_cons.1 hnd).2 hj2]
    rfl

/-- C4: the `Spend` pointer of a spending purpose is the position of its
output reference within ALL of the transaction's inputs (script-locked and
key-locked alike) arranged in the canonical order: any permutation of
`tx.inputs` that is sorted lexicographically by transaction id then index
assigns index `j` to the reference sitting at its position `j`. -/
theorem spend_pointer_over_sorted_inputs (tx : MintedTx) (r : TransactionInput)
    (l : List TransactionInput) (j : Nat) (hj : j < l.length)
    (hperm : l.Perm tx.transactionBody.inputs)
    (hsorted : List.Pairwise specSpendLe l)
    (hnd : tx.transactionBody.inputs.Nodup)
    (hget : l.get ⟨j, hj⟩ = r) :
    buildRedeemerKey tx (.spending r) = .ok (some ⟨.spend, j⟩) := by
  haveI : IsAntisymm TransactionInput specSpendLe :=
    ⟨fun a b ha hb => inputLeB_antisymm (inputLeB_iff_spec.2 ha) (inputLeB_iff_spec.2 hb)⟩
  have hsorted2 :
      List.Pairwise specSpendLe (sortByB inputLeB tx.transactionBody.inputs) :=
    (sortByB_pairwise inputLeB_total (fun a b c h1 h2 => inputLeB_trans h1 h2)
      tx.transactionBody.inputs).imp (fun h => inputLeB_iff_spec.1 h)
  have hl : l = sortByB inputLeB tx.transactionBody.inputs :=
    List.eq_of_perm_of_sorted
      (hperm.trans (sortByB_perm inputLeB tx.transactionBody.inputs).symm)
      hsorted hsorted2
  have hndl : l.Nodup := hperm.symm.nodup hnd
  show RunResult.ok ((listPosition (fun x => decide (x = r))
      (sortByB inputLeB tx.transactionBody.inputs)).map
      (fun index => (⟨.spend, index⟩ : RedeemersKey))) = .ok (some ⟨.spend, j⟩)
  rw [← hl]
  subst hget
  rw [listPosition_of_nodup hndl hj]
  rfl

/-- C4 witness: with inputs supplied out of order, the second element of
the sorted view gets index 1. -/
theorem spend_pointer_over_sorted_inputs_witness :
    buildRedeemerKey txTwoInputs (.spending ⟨[2], 0⟩) = .ok (some ⟨.spend, 1⟩) :=
  spend_pointer_over_sorted_inputs txTwoInputs ⟨[2], 0⟩
    [⟨[1], 7⟩, ⟨[2], 0⟩] 1 (by decide) (by decide) (by decide) (by decide) (by decide)

/-- C8: permuting the mint entries, the withdrawal entries, or the inputs
of a transaction leaves every computed redeemer pointer unchanged (`Mint`
and `Reward` indices come from the byte-lexicographic sort of the container
keys, `Spend` indices from the canonical input sort), whereas permuting the
certificates can change a `Cert` index, which is positional. -/
theorem pointer_stability_under_permutation :
    (∀ (txA txB : MintedTx) (p : ScriptPurpose),
        txA.transactionBody.inputs.Perm txB.transactionBody.inputs →
        (txA.transactionBody.mint.getD []).Perm (txB.transactionBody.mint.getD []) →
        (txA.transactionBody.withdrawals.getD []).Perm
          (txB.transactionBody.withdrawals.getD []) →
        txA.transactionBody.certificates.getD [] =
          txB.transactionBody.certificates.getD [] →
        buildRedeemerKey txA p = buildRedeemerKey txB p) ∧
    buildRedeemerKey txCertsAB (.certifying (.stakeDeregistration (.scripthash [1]))) ≠
      buildRedeemerKey txCertsBA (.certifying (.stakeDeregistration (.scripthash [1]))) := by
  constructor
  · intro txA txB p hin hmint hwdrl hcert
    cases p with
    | minting hash =>
      have hsort : sortByB bytesLeB ((txA.transactionBody.mint.getD []).map Prod.fst) =
          sortByB bytesLeB ((txB.transactionBody.mint.getD []).map Prod.fst) :=
        sortByB_eq_of_perm bytesLeB_total (fun a b c h1 h2 => bytesLeB_trans h1 h2)
          (fun a b h1 h2 => bytesLeB_antisymm h1 h2) (hmint.map Prod.fst)
      simp only [buildRedeemerKey]
      rw [hsort]
    | spending txin =>
      have hsort : sortByB inputLeB txA.transactionBody.inputs =
          sortByB inputLeB txB.transactionBody.inputs :=
        sortByB_eq_of_perm inputLeB_total (fun a b c h1 h2 => inputLeB_trans h1 h2)
          (fun a b h1 h2 => inputLeB_antisymm h1 h2) hin
      simp only [buildRedeemerKey]
      rw [hsort]
    | rewarding racnt =>
      have hsort :
          sortByB bytesLeB ((txA.transactionBody.withdrawals.getD []).map Prod.fst) =
          sortByB bytesLeB ((txB.transactionBody.withdrawals.getD []).map Prod.fst) :=
        sortByB_eq_of_perm bytesLeB_total (fun a b c h1 h2 => bytesLeB_trans h1 h2)
          (fun a b h1 h2 => bytesLeB_antisymm h1 h2) (hwdrl.map Prod.fst)
      simp only [buildRedeemerKey]
      rw [hsort]
    | certifying d =>
      simp only [buildRedeemerKey]
      rcases hA : txA.transactionBody.certificates with _ | cA
      · rcases hB : txB.transactionBody.certificates with _ | cB
        · rfl
        · rw [hA, hB] at hcert
          simp only [Option.getD_none, Option.getD_some] at hcert
          rw [← hcert]
          rfl
      · rcases hB : txB.transactionBody.certificates with _ | cB
        · rw [hA, hB] at hcert
          simp only [Option.getD_none, Option.getD_some] at hcert
          rw [hcert]
          rfl
        · rw [hA, hB] at hcert
          simp only [Option.getD_some] at hcert
          rw [hcert]
  · decide

/-- C8 witness: swapping the two mint entries leaves the `Mint` pointer of
policy `[9]` unchanged. -/
theorem pointer_stability_under_permutation_witness :
    buildRedeemerKey txTwoMints (.minting [9]) =
      buildRedeemerKey txTwoMintsPermuted (.minting [9]) :=
  pointer_stability_under_permutation.1 txTwoMints txTwoMintsPermuted (.minting [9])
    (by decide) (by decide) (by decide) (by decide)
